import Mathlib

/-!
Verification of the text transformation engine of the quickwrite markdown
editor. The document text is modelled as a `List Char`; each formatting
action is a pure function from `TransformArgs` to `TransformResult`,
translated directly from the TypeScript source (`MarkdownEditor`).
JavaScript's `text.slice(a, b)` on well-formed offsets is modelled as
`(text.drop a).take (b - a)`, `text.slice(0, a)` as `text.take a` and
`text.slice(b)` as `text.drop b`.
-/

namespace Quickwrite

/-- Input of a transform: the document text and a selection range. -/
structure TransformArgs where
  text : List Char
  selectionStart : Nat
  selectionEnd : Nat
  deriving Repr, DecidableEq

/-- Output of a transform: the new document text and the new selection. -/
structure TransformResult where
  value : List Char
  selectionStart : Nat
  selectionEnd : Nat
  deriving Repr, DecidableEq

/-- Well-formed input offsets: `0 ≤ selectionStart ≤ selectionEnd ≤ length text`. -/
def WellFormed (args : TransformArgs) : Prop :=
  args.selectionStart ≤ args.selectionEnd ∧ args.selectionEnd ≤ args.text.length

instance (args : TransformArgs) : Decidable (WellFormed args) := by
  unfold WellFormed; infer_instance

/-- Characters removed by JavaScript `String.prototype.trim` and matched by
the regex class `\s` (ASCII whitespace, NBSP, BOM and the Unicode space
separators). -/
def jsWhitespace : List Char :=
  [' ', '\t', '\n', '\r', '\x0b', '\x0c', '\u00A0', '\uFEFF',
   '\u1680', '\u2000', '\u2001', '\u2002', '\u2003', '\u2004', '\u2005',
   '\u2006', '\u2007', '\u2008', '\u2009', '\u200A', '\u2028', '\u2029',
   '\u202F', '\u205F', '\u3000']

/-- Whether a character is JavaScript whitespace. -/
def isWs (c : Char) : Bool := jsWhitespace.contains c

/-- JavaScript `s.trim()`: remove whitespace from both ends. -/
def jsTrim (l : List Char) : List Char :=
  ((l.dropWhile isWs).reverse.dropWhile isWs).reverse

/-- After the first `#`, consume up to `n` further `#` characters and then
leading whitespace: the tail of the regex `/^#\x7b1,6\x7d\s*/`. -/
def dropHashesThenWs : Nat → List Char → List Char
  | 0, l => l.dropWhile isWs
  | n + 1, c :: rest => if c = '#' then dropHashesThenWs n rest else (c :: rest).dropWhile isWs
  | _ + 1, [] => []

/-- JavaScript `selected.replace(/^#\x7b1,6\x7d\s*/, "")`: strip a leading
heading marker of one to six `#` and the whitespace after it; if the text
does not start with `#` the regex does not match and nothing is removed. -/
def stripHeadingMarker (l : List Char) : List Char :=
  match l with
  | c :: rest => if c = '#' then dropHashesThenWs 5 rest else l
  | [] => []

/-- Prepend a character to the first chunk of a split result. -/
def consHead (c : Char) : List (List Char) → List (List Char)
  | [] => [[c]]
  | l :: ls => (c :: l) :: ls

/-- JavaScript `content.split(/\r?\n/)`: split on `\n` or `\r\n`; a lone
`\r` not followed by `\n` stays inside its line. -/
def splitLines (l : List Char) : List (List Char) :=
  match l with
  | [] => [[]]
  | c :: rest =>
    if c = '\n' then [] :: splitLines rest
    else if c = '\r' ∧ rest.head? = some '\n' then [] :: splitLines rest.tail
    else consHead c (splitLines rest)
termination_by l.length
decreasing_by all_goals simp; try omega

/-- JavaScript `lines.join("\n")`. -/
def joinNl : List (List Char) → List Char
  | [] => []
  | [l] => l
  | l :: ls => l ++ '\n' :: joinNl ls

/-- Split a list on the character `\n` alone (used to talk about the lines
of a produced region, whose line endings are plain `\n`). -/
def splitOnNl (l : List Char) : List (List Char) :=
  match l with
  | [] => [[]]
  | c :: rest => if c = '\n' then [] :: splitOnNl rest else consHead c (splitOnNl rest)

/-- The per-line step of `prefixLines`: a line with some non-whitespace
character gets the marker prepended, a blank or whitespace-only line is
replaced by the bare marker. -/
def transformLine (pfx line : List Char) : List Char :=
  if (jsTrim line).length ≠ 0 then pfx ++ line else pfx

/-- Lines 74-77 of the source: split the content on `\r?\n`, transform each
line, and rejoin with `\n`. -/
def prefixContent (pfx content : List Char) : List Char :=
  joinNl ((splitLines content).map (transformLine pfx))

/-- JavaScript `text.slice(selectionStart, selectionEnd)`: the selected
substring of the document. -/
def selectedSlice (args : TransformArgs) : List Char :=
  (args.text.drop args.selectionStart).take (args.selectionEnd - args.selectionStart)

/-- `wrapSelection(before, after, placeholder)` from the source. -/
def wrapSelection (before after placeholder : List Char) (args : TransformArgs) :
    TransformResult :=
  let selected := selectedSlice args
  let content := if 0 < selected.length then selected else placeholder
  let value := args.text.take args.selectionStart ++ before ++ content ++ after ++
    args.text.drop args.selectionEnd
  let start := args.selectionStart + before.length
  ⟨value, start, start + content.length⟩

/-- `prefixLines(prefix, placeholder)` from the source. -/
def prefixLines (pfx placeholder : List Char) (args : TransformArgs) : TransformResult :=
  let before := args.text.take args.selectionStart
  let after := args.text.drop args.selectionEnd
  let selected := selectedSlice args
  let content := if 0 < selected.length then selected else placeholder
  let transformed := prefixContent pfx content
  let value := before ++ transformed ++ after
  let e := args.selectionStart + transformed.length
  ⟨value, e, e⟩

/-- `headingTransform(level)` from the source. -/
def headingTransform (level : Nat) (args : TransformArgs) : TransformResult :=
  let before := args.text.take args.selectionStart
  let after := args.text.drop args.selectionEnd
  let selected := selectedSlice args
  let content :=
    let stripped := jsTrim (stripHeadingMarker selected)
    if 0 < stripped.length then stripped else ("Heading".toList)
  let pfx := List.replicate level '#' ++ [' ']
  let needsLeading :=
    if args.selectionStart = 0 ∨ before.getLast? = some '\n' then ([] : List Char)
    else ("\n\n".toList)
  let needsTrailing :=
    if args.selectionEnd = args.text.length ∨ after.head? = some '\n' then ([] : List Char)
    else ("\n\n".toList)
  let insertion := needsLeading ++ pfx ++ content ++ needsTrailing
  let value := before ++ insertion ++ after
  let start := before.length + needsLeading.length + pfx.length
  ⟨value, start, start + content.length⟩

/-- `codeTransform` from the source. -/
def codeTransform (args : TransformArgs) : TransformResult :=
  let before := args.text.take args.selectionStart
  let after := args.text.drop args.selectionEnd
  let selected := selectedSlice args
  let content := if 0 < selected.length then selected else ("code snippet".toList)
  let isMultiLine := content.contains '\n'
  if isMultiLine ∨ selected.length = 0 then
    let pfx := if before.getLast? = some '\n' then ("\n".toList) else ("\n\n".toList)
    let suffix := if after.head? = some '\n' then ("\n".toList) else ("\n\n".toList)
    let block := pfx ++ ("```\n".toList) ++ content ++ ("\n```".toList) ++ suffix
    let value := before ++ block ++ after
    let start := before.length + pfx.length + 4
    ⟨value, start, start + content.length⟩
  else
    let inline := ("`".toList) ++ content ++ ("`".toList)
    let value := before ++ inline ++ after
    let start := args.selectionStart + 1
    ⟨value, start, start + content.length⟩

/-- `dividerTransform` from the source. -/
def dividerTransform (args : TransformArgs) : TransformResult :=
  let before := args.text.take args.selectionStart
  let after := args.text.drop args.selectionEnd
  let pfx := if before.getLast? = some '\n' then ("\n".toList) else ("\n\n".toList)
  let suffix := if after.head? = some '\n' then ("\n".toList) else ("\n\n".toList)
  let insertion := pfx ++ ("---".toList) ++ suffix
  let value := before ++ insertion ++ after
  let cursor := before.length + insertion.length
  ⟨value, cursor, cursor⟩

/-- One entry of the static action registry. -/
structure FormattingAction where
  id : String
  label : String
  hint : String
  transform : TransformArgs → TransformResult

/-- The static registry `formattingActions` from the source, in order. -/
def formattingActions : List FormattingAction :=
  [⟨"bold", "Bold", "Bold (Cmd/Ctrl + B)",
      wrapSelection ("**".toList) ("**".toList) ("bold text".toList)⟩,
   ⟨"italic", "Italic", "Italic (Cmd/Ctrl + I)",
      wrapSelection ("_".toList) ("_".toList) ("emphasis".toList)⟩,
   ⟨"heading", "Heading", "Level 2 heading (Cmd/Ctrl + 2)", headingTransform 2⟩,
   ⟨"quote", "Quote", "Blockquote", prefixLines ("> ".toList) ("Quote text".toList)⟩,
   ⟨"code", "Code", "Inline or fenced code (Cmd/Ctrl + E)", codeTransform⟩,
   ⟨"todo", "Todo", "Checklist item", prefixLines ("- [ ] ".toList) ("Task detail".toList)⟩,
   ⟨"divider", "Divider", "Horizontal rule", dividerTransform⟩]

/-- `runAction(id)` from the source: look the id up in the registry and
apply the transform; an unregistered id finds nothing and the document is
left untouched, modelled as `none`. -/
def runAction (id : String) (args : TransformArgs) : Option TransformResult :=
  match formattingActions.find? (fun item => item.id == id) with
  | some action => some (action.transform args)
  | none => none

/-- Formalisation of the separator rule asserted by the specification for the
divider: the heading transform's rule, where the leading separator is empty
when the selection starts at document start or right after a newline, and
the trailing separator is empty at document end or right before a newline. -/
def dividerClaimedHeadingSep (args : TransformArgs) : TransformResult :=
  let before := args.text.take args.selectionStart
  let after := args.text.drop args.selectionEnd
  let needsLeading :=
    if args.selectionStart = 0 ∨ before.getLast? = some '\n' then ([] : List Char)
    else ("\n\n".toList)
  let needsTrailing :=
    if args.selectionEnd = args.text.length ∨ after.head? = some '\n' then ([] : List Char)
    else ("\n\n".toList)
  let insertion := needsLeading ++ ("---".toList) ++ needsTrailing
  ⟨before ++ insertion ++ after, before.length + insertion.length,
    before.length + insertion.length⟩

/-- The separator rule the divider actually implements, stated over character
indices: a single newline of padding when the character adjacent to the
selection is already a newline, a blank line otherwise — also at the
document boundaries. This is the fenced-code-block rule of `codeTransform`,
not the heading rule. -/
def dividerAmendedSpec (args : TransformArgs) : TransformResult :=
  let lead :=
    if 0 < args.selectionStart ∧ args.text[args.selectionStart - 1]? = some '\n'
    then ("\n".toList) else ("\n\n".toList)
  let trail :=
    if args.text[args.selectionEnd]? = some '\n' then ("\n".toList) else ("\n\n".toList)
  let insertion := lead ++ ("---".toList) ++ trail
  ⟨args.text.take args.selectionStart ++ insertion ++ args.text.drop args.selectionEnd,
    args.selectionStart + insertion.length, args.selectionStart + insertion.length⟩

end Quickwrite

namespace Quickwrite

/-- Length of a `take` under a valid bound. -/
theorem length_take_of_le {l : List Char} {n : Nat} (h : n ≤ l.length) :
    (l.take n).length = n := by
  simp; omega

/-- Length of the selected slice under well-formed offsets. -/
theorem length_selected {t : List Char} {s e : Nat} (he : e ≤ t.length) :
    ((t.drop s).take (e - s)).length = e - s := by
  simp; omega

/-- Extract the middle segment of a five-part concatenation. -/
theorem drop_take_mid5 (x c mid d y : List Char) {n m : Nat}
    (hn : x.length + c.length = n) (hm : mid.length = m) :
    ((x ++ c ++ mid ++ d ++ y).drop n).take m = mid := by
  subst hn; subst hm
  rw [List.append_assoc (x ++ c ++ mid) d y, List.append_assoc (x ++ c) mid (d ++ y),
    ← List.length_append x c, List.drop_left, List.take_left]

/-- Take the first two segments of a five-part concatenation. -/
theorem take_left5 (x c mid d y : List Char) {n : Nat}
    (hn : x.length + c.length = n) :
    (x ++ c ++ mid ++ d ++ y).take n = x ++ c := by
  subst hn
  rw [List.append_assoc (x ++ c ++ mid) d y, List.append_assoc (x ++ c) mid (d ++ y),
    ← List.length_append x c, List.take_left]

/-- Drop the first three segments of a five-part concatenation. -/
theorem drop_left5 (x c mid d y : List Char) {n : Nat}
    (hn : x.length + c.length + mid.length = n) :
    (x ++ c ++ mid ++ d ++ y).drop n = d ++ y := by
  subst hn
  rw [List.append_assoc (x ++ c ++ mid) d y,
    ← List.length_append x c, ← List.length_append (x ++ c) mid, List.drop_left]

/-- C2: on an empty selection at caret offset `k ≤ length t`, `wrapSelection`
splices `before ++ placeholder ++ after` at `k` and returns the selection
spanning exactly the placeholder. -/
theorem wrapSelection_caret_insert (before after placeholder t : List Char) (k : Nat)
    (_hk : k ≤ t.length) :
    wrapSelection before after placeholder ⟨t, k, k⟩ =
      ⟨t.take k ++ before ++ placeholder ++ after ++ t.drop k,
       k + before.length, k + before.length + placeholder.length⟩ := by
  simp [wrapSelection, selectedSlice]

/-- Witness for C2 at a concrete input. -/
theorem wrapSelection_caret_insert_witness :
    (1 ≤ "hi".toList.length) ∧
    wrapSelection ("**".toList) ("**".toList) ("bold text".toList) ⟨"hi".toList, 1, 1⟩ =
      ⟨"hi".toList.take 1 ++ "**".toList ++ "bold text".toList ++ "**".toList ++
        "hi".toList.drop 1,
       1 + "**".toList.length, 1 + "**".toList.length + "bold text".toList.length⟩ :=
  ⟨by decide, wrapSelection_caret_insert _ _ _ _ 1 (by decide)⟩

/-- C3: with a non-empty well-formed selection, slicing the output of
`wrapSelection` between the returned selection offsets gives back exactly
the originally selected substring. -/
theorem wrapSelection_roundtrip (before after placeholder t : List Char) (s e : Nat)
    (hse : s < e) (het : e ≤ t.length) :
    ((wrapSelection before after placeholder ⟨t, s, e⟩).value.drop
        (wrapSelection before after placeholder ⟨t, s, e⟩).selectionStart).take
      ((wrapSelection before after placeholder ⟨t, s, e⟩).selectionEnd -
        (wrapSelection before after placeholder ⟨t, s, e⟩).selectionStart) =
    (t.drop s).take (e - s) := by
  have hsel : ((t.drop s).take (e - s)).length = e - s := length_selected het
  have hpos : 0 < ((t.drop s).take (e - s)).length := by omega
  simp only [wrapSelection, selectedSlice, if_pos hpos]
  have harith : s + before.length + ((t.drop s).take (e - s)).length -
      (s + before.length) = ((t.drop s).take (e - s)).length := by omega
  have hs : s ≤ t.length := by omega
  rw [harith]
  exact drop_take_mid5 (t.take s) before ((t.drop s).take (e - s)) after (t.drop e)
    (by rw [length_take_of_le hs]) rfl

/-- Witness for C3 at a concrete input. -/
theorem wrapSelection_roundtrip_witness :
    (1 < 3) ∧
    ((wrapSelection ("**".toList) ("**".toList) ("p".toList)
          ⟨"hello".toList, 1, 3⟩).value.drop
        (wrapSelection ("**".toList) ("**".toList) ("p".toList)
          ⟨"hello".toList, 1, 3⟩).selectionStart).take
      ((wrapSelection ("**".toList) ("**".toList) ("p".toList)
          ⟨"hello".toList, 1, 3⟩).selectionEnd -
        (wrapSelection ("**".toList) ("**".toList) ("p".toList)
          ⟨"hello".toList, 1, 3⟩).selectionStart) =
    ("hello".toList.drop 1).take (3 - 1) :=
  ⟨by decide, wrapSelection_roundtrip _ _ _ _ 1 3 (by decide) (by decide)⟩

end Quickwrite

namespace Quickwrite

/-- Last element of a `take` as an indexing fact. -/
theorem getLast?_take_iff {t : List Char} {s : Nat} (hs : s ≤ t.length) :
    (t.take s).getLast? = some '\n' ↔ (0 < s ∧ t[s - 1]? = some '\n') := by
  rcases Nat.eq_zero_or_pos s with h0 | hpos
  · subst h0; simp
  · rw [List.getLast?_eq_getElem?, List.length_take]
    have hmin : min s t.length = s := by omega
    rw [hmin, List.getElem?_take_of_lt (by omega)]
    simp [hpos]

/-- Head of a `drop` as an indexing fact. -/
theorem head?_drop_eq (t : List Char) (e : Nat) : (t.drop e).head? = t[e]? := by
  rw [List.head?_eq_getElem?, List.getElem?_drop, Nat.add_zero]

/-- C1 counterexample: on the empty document with the caret at the start, the
divider does not follow the heading transform's separator rule asserted by
the specification (it still pads with blank lines at the document start,
producing a leading separator where the heading rule yields none). -/
theorem dividerTransform_ne_claimed :
    (dividerTransform ⟨[], 0, 0⟩).value ≠ (dividerClaimedHeadingSep ⟨[], 0, 0⟩).value := by
  decide

/-- C1 amended: for every well-formed input, the divider's separators follow
the fenced-code-block rule — one `\n` when the character adjacent to the
selection is a newline and `\n\n` otherwise, including at the document
boundaries — with the caret placed right after the insertion. -/
theorem dividerTransform_amended (args : TransformArgs) (hwf : WellFormed args) :
    dividerTransform args = dividerAmendedSpec args := by
  obtain ⟨h1, h2⟩ := hwf
  have hs : args.selectionStart ≤ args.text.length := le_trans h1 h2
  have hlead : ((args.text.take args.selectionStart).getLast? = some '\n') =
      (0 < args.selectionStart ∧ args.text[args.selectionStart - 1]? = some '\n') :=
    propext (getLast?_take_iff hs)
  have htrail : ((args.text.drop args.selectionEnd).head? = some '\n') =
      (args.text[args.selectionEnd]? = some '\n') := by
    rw [head?_drop_eq]
  simp only [dividerTransform, dividerAmendedSpec, hlead, htrail, length_take_of_le hs]

/-- Witness for C1's amended theorem at a concrete input. -/
theorem dividerTransform_amended_witness :
    WellFormed ⟨"A\nB".toList, 2, 2⟩ ∧
    dividerTransform ⟨"A\nB".toList, 2, 2⟩ = dividerAmendedSpec ⟨"A\nB".toList, 2, 2⟩ :=
  ⟨by decide, dividerTransform_amended ⟨"A\nB".toList, 2, 2⟩ (by decide)⟩

/-- C9 counterexample: with both markers empty, re-applying `wrapSelection`
to its own output over the returned selection reproduces the previous
result exactly — a no-op, so the nesting claim fails for empty markers. -/
theorem wrapSelection_empty_markers_noop :
    wrapSelection [] [] ("p".toList)
        ⟨(wrapSelection [] [] ("p".toList) ⟨"hi".toList, 0, 2⟩).value,
         (wrapSelection [] [] ("p".toList) ⟨"hi".toList, 0, 2⟩).selectionStart,
         (wrapSelection [] [] ("p".toList) ⟨"hi".toList, 0, 2⟩).selectionEnd⟩ =
      wrapSelection [] [] ("p".toList) ⟨"hi".toList, 0, 2⟩ := by
  decide

/-- C9 amended: re-applying `wrapSelection` to its own output with the
returned selection nests the markers — the new value carries `before` and
`after` twice around the previously wrapped content, with the selection on
the inner content — and whenever at least one marker is non-empty the value
changes, so the transform is not idempotent. -/
theorem wrapSelection_nested (before after placeholder t content : List Char) (s e : Nat)
    (hse : s ≤ e) (het : e ≤ t.length)
    (hcontent : content = if 0 < ((t.drop s).take (e - s)).length
        then (t.drop s).take (e - s) else placeholder) :
    wrapSelection before after placeholder
        ⟨(wrapSelection before after placeholder ⟨t, s, e⟩).value,
         (wrapSelection before after placeholder ⟨t, s, e⟩).selectionStart,
         (wrapSelection before after placeholder ⟨t, s, e⟩).selectionEnd⟩ =
      ⟨t.take s ++ before ++ before ++ content ++ after ++ after ++ t.drop e,
       s + before.length + before.length,
       s + before.length + before.length + content.length⟩ ∧
    (0 < before.length + after.length →
      (wrapSelection before after placeholder
          ⟨(wrapSelection before after placeholder ⟨t, s, e⟩).value,
           (wrapSelection before after placeholder ⟨t, s, e⟩).selectionStart,
           (wrapSelection before after placeholder ⟨t, s, e⟩).selectionEnd⟩).value ≠
        (wrapSelection before after placeholder ⟨t, s, e⟩).value) := by
  have hs : s ≤ t.length := le_trans hse het
  have hlen_take : (t.take s).length = s := length_take_of_le hs
  have hr1 : wrapSelection before after placeholder ⟨t, s, e⟩ =
      ⟨t.take s ++ before ++ content ++ after ++ t.drop e,
       s + before.length, s + before.length + content.length⟩ := by
    rw [hcontent]; rfl
  have hcc : (if 0 < content.length then content else placeholder) = content := by
    by_cases h : 0 < content.length
    · rw [if_pos h]
    · rw [if_neg h]
      have hcnil : content = [] := by
        cases content with
        | nil => rfl
        | cons x xs => simp at h
      by_cases hsel : 0 < ((t.drop s).take (e - s)).length
      · rw [hcontent, if_pos hsel] at hcnil
        rw [hcnil] at hsel
        simp at hsel
      · rw [hcontent, if_neg hsel]
  have hmain : wrapSelection before after placeholder
      ⟨(wrapSelection before after placeholder ⟨t, s, e⟩).value,
       (wrapSelection before after placeholder ⟨t, s, e⟩).selectionStart,
       (wrapSelection before after placeholder ⟨t, s, e⟩).selectionEnd⟩ =
      ⟨t.take s ++ before ++ before ++ content ++ after ++ after ++ t.drop e,
       s + before.length + before.length,
       s + before.length + before.length + content.length⟩ := by
    rw [hr1]
    simp only [wrapSelection, selectedSlice]
    have harith : s + before.length + content.length - (s + before.length) =
        content.length := by omega
    rw [harith]
    rw [drop_take_mid5 (t.take s) before content after (t.drop e)
      (by rw [hlen_take]) rfl]
    rw [hcc]
    rw [take_left5 (t.take s) before content after (t.drop e) (by rw [hlen_take])]
    rw [drop_left5 (t.take s) before content after (t.drop e) (by rw [hlen_take])]
    simp [List.append_assoc]
  refine ⟨hmain, fun hba heq => ?_⟩
  have hv := (congrArg TransformResult.value hmain).symm.trans heq
  rw [hr1] at hv
  have hl := congrArg List.length hv
  simp [List.length_append] at hl
  omega

/-- Witness for C9's amended theorem at a concrete input: with `**` markers
the second application changes the text. -/
theorem wrapSelection_nested_witness :
    (wrapSelection ("**".toList) ("**".toList) ("p".toList)
        ⟨(wrapSelection ("**".toList) ("**".toList) ("p".toList)
            ⟨"hello".toList, 1, 3⟩).value,
         (wrapSelection ("**".toList) ("**".toList) ("p".toList)
            ⟨"hello".toList, 1, 3⟩).selectionStart,
         (wrapSelection ("**".toList) ("**".toList) ("p".toList)
            ⟨"hello".toList, 1, 3⟩).selectionEnd⟩).value ≠
      (wrapSelection ("**".toList) ("**".toList) ("p".toList)
        ⟨"hello".toList, 1, 3⟩).value :=
  (wrapSelection_nested ("**".toList) ("**".toList) ("p".toList) ("hello".toList)
    (("hello".toList.drop 1).take (3 - 1)) 1 3 (by decide) (by decide) (by decide)).2
    (by decide)

end Quickwrite

namespace Quickwrite

/-- Value shape of `wrapSelection`: untouched prefix, inserted middle,
untouched suffix. -/
theorem wrapSelection_shape (before after placeholder : List Char) (args : TransformArgs) :
    (wrapSelection before after placeholder args).value =
      args.text.take args.selectionStart ++
        (before ++ (if 0 < (selectedSlice args).length then selectedSlice args
          else placeholder) ++ after) ++
        args.text.drop args.selectionEnd := by
  simp [wrapSelection, List.append_assoc]

/-- Value shape of `prefixLines`. -/
theorem prefixLines_shape (pfx placeholder : List Char) (args : TransformArgs) :
    (prefixLines pfx placeholder args).value =
      args.text.take args.selectionStart ++
        prefixContent pfx (if 0 < (selectedSlice args).length then selectedSlice args
          else placeholder) ++
        args.text.drop args.selectionEnd := rfl

/-- Value shape of `headingTransform`. -/
theorem headingTransform_shape (level : Nat) (args : TransformArgs) :
    (headingTransform level args).value =
      args.text.take args.selectionStart ++
        ((if args.selectionStart = 0 ∨
              (args.text.take args.selectionStart).getLast? = some '\n'
          then ([] : List Char) else ("\n\n".toList)) ++
          (List.replicate level '#' ++ [' ']) ++
          (if 0 < (jsTrim (stripHeadingMarker (selectedSlice args))).length
            then jsTrim (stripHeadingMarker (selectedSlice args)) else ("Heading".toList)) ++
          (if args.selectionEnd = args.text.length ∨
              (args.text.drop args.selectionEnd).head? = some '\n'
            then ([] : List Char) else ("\n\n".toList))) ++
        args.text.drop args.selectionEnd := rfl

/-- Value shape of `dividerTransform`. -/
theorem dividerTransform_shape (args : TransformArgs) :
    (dividerTransform args).value =
      args.text.take args.selectionStart ++
        ((if (args.text.take args.selectionStart).getLast? = some '\n' then ("\n".toList)
            else ("\n\n".toList)) ++ ("---".toList) ++
          (if (args.text.drop args.selectionEnd).head? = some '\n' then ("\n".toList)
            else ("\n\n".toList))) ++
        args.text.drop args.selectionEnd := rfl

/-- Value shape of `codeTransform`, existentially over the two modes. -/
theorem codeTransform_frame (args : TransformArgs) :
    ∃ mid, (codeTransform args).value =
      args.text.take args.selectionStart ++ mid ++ args.text.drop args.selectionEnd := by
  simp only [codeTransform]
  split <;> split <;> exact ⟨_, rfl⟩

/-- Selection bounds of `wrapSelection`. -/
theorem wrapSelection_bounds (before after placeholder : List Char) (args : TransformArgs)
    (h : WellFormed args) :
    (wrapSelection before after placeholder args).selectionStart ≤
        (wrapSelection before after placeholder args).selectionEnd ∧
      (wrapSelection before after placeholder args).selectionEnd ≤
        (wrapSelection before after placeholder args).value.length := by
  obtain ⟨h1, h2⟩ := h
  simp only [wrapSelection]
  refine ⟨Nat.le_add_right _ _, ?_⟩
  simp [List.length_append]
  omega

/-- Selection bounds of `prefixLines`. -/
theorem prefixLines_bounds (pfx placeholder : List Char) (args : TransformArgs)
    (h : WellFormed args) :
    (prefixLines pfx placeholder args).selectionStart ≤
        (prefixLines pfx placeholder args).selectionEnd ∧
      (prefixLines pfx placeholder args).selectionEnd ≤
        (prefixLines pfx placeholder args).value.length := by
  obtain ⟨h1, h2⟩ := h
  simp only [prefixLines]
  refine ⟨le_refl _, ?_⟩
  simp [List.length_append]
  omega

/-- Selection bounds of `headingTransform`. -/
theorem headingTransform_bounds (level : Nat) (args : TransformArgs)
    (_h : WellFormed args) :
    (headingTransform level args).selectionStart ≤
        (headingTransform level args).selectionEnd ∧
      (headingTransform level args).selectionEnd ≤
        (headingTransform level args).value.length := by
  simp only [headingTransform]
  refine ⟨Nat.le_add_right _ _, ?_⟩
  simp [List.length_append]
  omega

/-- Selection bounds of `codeTransform`. -/
theorem codeTransform_bounds (args : TransformArgs) (h : WellFormed args) :
    (codeTransform args).selectionStart ≤ (codeTransform args).selectionEnd ∧
      (codeTransform args).selectionEnd ≤ (codeTransform args).value.length := by
  obtain ⟨h1, h2⟩ := h
  have hfo : ("```\n".toList).length = 4 := rfl
  have hfc : ("\n```".toList).length = 4 := rfl
  have hbt : ("`".toList).length = 1 := rfl
  simp only [codeTransform]
  split <;> split <;> refine ⟨Nat.le_add_right _ _, ?_⟩ <;>
    simp [List.length_append, hfo, hfc, hbt] <;> omega

/-- Selection bounds of `dividerTransform`. -/
theorem dividerTransform_bounds (args : TransformArgs) (_h : WellFormed args) :
    (dividerTransform args).selectionStart ≤ (dividerTransform args).selectionEnd ∧
      (dividerTransform args).selectionEnd ≤ (dividerTransform args).value.length := by
  simp only [dividerTransform]
  refine ⟨le_refl _, ?_⟩
  simp [List.length_append]

/-- C6: every transform of the registry returns selection offsets that are
valid positions in the returned value. -/
theorem registry_selection_valid (act : FormattingAction) (hact : act ∈ formattingActions)
    (args : TransformArgs) (hwf : WellFormed args) :
    0 ≤ (act.transform args).selectionStart ∧
      (act.transform args).selectionStart ≤ (act.transform args).selectionEnd ∧
      (act.transform args).selectionEnd ≤ (act.transform args).value.length := by
  refine ⟨Nat.zero_le _, ?_⟩
  simp only [formattingActions, List.mem_cons, List.not_mem_nil, or_false] at hact
  rcases hact with h | h | h | h | h | h | h <;> subst h
  · exact wrapSelection_bounds _ _ _ _ hwf
  · exact wrapSelection_bounds _ _ _ _ hwf
  · exact headingTransform_bounds _ _ hwf
  · exact prefixLines_bounds _ _ _ hwf
  · exact codeTransform_bounds _ hwf
  · exact prefixLines_bounds _ _ _ hwf
  · exact dividerTransform_bounds _ hwf

/-- Witness for C6 at the bold action and a concrete input. -/
theorem registry_selection_valid_witness :
    ((⟨"bold", "Bold", "Bold (Cmd/Ctrl + B)",
        wrapSelection ("**".toList) ("**".toList) ("bold text".toList)⟩ : FormattingAction) ∈
        formattingActions) ∧
    WellFormed ⟨"hi".toList, 0, 2⟩ ∧
    (0 ≤ ((⟨"bold", "Bold", "Bold (Cmd/Ctrl + B)",
        wrapSelection ("**".toList) ("**".toList) ("bold text".toList)⟩ :
          FormattingAction).transform ⟨"hi".toList, 0, 2⟩).selectionStart ∧
      ((⟨"bold", "Bold", "Bold (Cmd/Ctrl + B)",
        wrapSelection ("**".toList) ("**".toList) ("bold text".toList)⟩ :
          FormattingAction).transform ⟨"hi".toList, 0, 2⟩).selectionStart ≤
        ((⟨"bold", "Bold", "Bold (Cmd/Ctrl + B)",
          wrapSelection ("**".toList) ("**".toList) ("bold text".toList)⟩ :
            FormattingAction).transform ⟨"hi".toList, 0, 2⟩).selectionEnd ∧
      ((⟨"bold", "Bold", "Bold (Cmd/Ctrl + B)",
        wrapSelection ("**".toList) ("**".toList) ("bold text".toList)⟩ :
          FormattingAction).transform ⟨"hi".toList, 0, 2⟩).selectionEnd ≤
        ((⟨"bold", "Bold", "Bold (Cmd/Ctrl + B)",
          wrapSelection ("**".toList) ("**".toList) ("bold text".toList)⟩ :
            FormattingAction).transform ⟨"hi".toList, 0, 2⟩).value.length) :=
  ⟨List.mem_cons_self _ _, by decide,
    registry_selection_valid _ (List.mem_cons_self _ _) _ (by decide)⟩

/-- C7: every transform of the registry preserves the untouched text: the
returned value is the unchanged prefix before the selection, a replacement
middle, and the unchanged suffix after the selection, in order. -/
theorem registry_frame (act : FormattingAction) (hact : act ∈ formattingActions)
    (args : TransformArgs) (_hwf : WellFormed args) :
    ∃ mid, (act.transform args).value =
      args.text.take args.selectionStart ++ mid ++ args.text.drop args.selectionEnd := by
  simp only [formattingActions, List.mem_cons, List.not_mem_nil, or_false] at hact
  rcases hact with h | h | h | h | h | h | h <;> subst h
  · exact ⟨_, wrapSelection_shape _ _ _ _⟩
  · exact ⟨_, wrapSelection_shape _ _ _ _⟩
  · exact ⟨_, headingTransform_shape _ _⟩
  · exact ⟨_, prefixLines_shape _ _ _⟩
  · exact codeTransform_frame _
  · exact ⟨_, prefixLines_shape _ _ _⟩
  · exact ⟨_, dividerTransform_shape _⟩

/-- Witness for C7 at the divider action and a concrete input. -/
theorem registry_frame_witness :
    ((⟨"divider", "Divider", "Horizontal rule", dividerTransform⟩ : FormattingAction) ∈
        formattingActions) ∧
    WellFormed ⟨"A\nB".toList, 1, 2⟩ ∧
    (∃ mid, ((⟨"divider", "Divider", "Horizontal rule", dividerTransform⟩ :
        FormattingAction).transform ⟨"A\nB".toList, 1, 2⟩).value =
      "A\nB".toList.take 1 ++ mid ++ "A\nB".toList.drop 2) :=
  ⟨by simp [formattingActions], by decide,
    registry_frame _ (by simp [formattingActions]) _ (by decide)⟩

end Quickwrite

namespace Quickwrite

/-- `consHead` never produces the empty list of chunks. -/
theorem consHead_ne_nil (c : Char) (L : List (List Char)) : consHead c L ≠ [] := by
  cases L <;> simp [consHead]

/-- Case analysis for membership in `consHead`. -/
theorem mem_consHead {c : Char} {L : List (List Char)} {x : List Char}
    (hx : x ∈ consHead c L) :
    (x = [c] ∧ L = []) ∨ ∃ l0 ls, L = l0 :: ls ∧ (x = c :: l0 ∨ x ∈ ls) := by
  cases L with
  | nil =>
    simp [consHead] at hx
    exact Or.inl ⟨hx, rfl⟩
  | cons l0 ls =>
    simp [consHead] at hx
    rcases hx with h | h
    · exact Or.inr ⟨l0, ls, rfl, Or.inl h⟩
    · exact Or.inr ⟨l0, ls, rfl, Or.inr h⟩

/-- No chunk produced by `splitLines` contains a newline. -/
theorem splitLines_no_nl (l : List Char) : ∀ c ∈ splitLines l, '\n' ∉ c := by
  induction l using splitLines.induct with
  | case1 =>
    intro c hc
    simp only [splitLines] at hc
    simp at hc
    simp [hc]
  | case2 rest ih =>
    intro c hc
    simp only [splitLines, if_pos rfl] at hc
    simp at hc
    rcases hc with h | h
    · simp [h]
    · exact ih c h
  | case3 c rest h1 h2 ih =>
    intro x hx
    simp only [splitLines, if_neg h1, if_pos h2] at hx
    simp at hx
    rcases hx with h | h
    · simp [h]
    · exact ih x h
  | case4 c rest h1 h2 ih =>
    intro x hx
    simp only [splitLines, if_neg h1, if_neg h2] at hx
    rcases mem_consHead hx with ⟨hxc, _⟩ | ⟨l0, ls, hL, hcase⟩
    · rw [hxc]
      intro hmem
      exact h1 ((List.mem_singleton.mp hmem).symm)
    · have hl0 : l0 ∈ splitLines rest := by rw [hL]; exact List.mem_cons_self _ _
      rcases hcase with h | h
      · rw [h]
        intro hmem
        rcases List.mem_cons.mp hmem with hh | hh
        · exact h1 hh.symm
        · exact ih l0 hl0 hh
      · exact ih x (by rw [hL]; exact List.mem_cons_of_mem _ h)

/-- `splitOnNl` never returns the empty list of chunks. -/
theorem splitOnNl_ne_nil (l : List Char) : splitOnNl l ≠ [] := by
  cases l with
  | nil => simp [splitOnNl]
  | cons c rest =>
    simp only [splitOnNl]
    split
    · simp
    · exact consHead_ne_nil _ _

/-- A newline-free list is a single chunk for `splitOnNl`. -/
theorem splitOnNl_no_nl {x : List Char} (hx : '\n' ∉ x) : splitOnNl x = [x] := by
  induction x with
  | nil => rfl
  | cons c cs ih =>
    have hc : ¬ c = '\n' := fun h => hx (List.mem_cons.mpr (Or.inl h.symm))
    simp only [splitOnNl, if_neg hc]
    rw [ih (fun h => hx (List.mem_cons_of_mem _ h))]
    rfl

/-- Splitting after a newline-free prefix followed by an explicit newline. -/
theorem splitOnNl_append_cons {x : List Char} (hx : '\n' ∉ x) (r : List Char) :
    splitOnNl (x ++ '\n' :: r) = x :: splitOnNl r := by
  induction x with
  | nil => simp [splitOnNl]
  | cons c cs ih =>
    have hc : ¬ c = '\n' := fun h => hx (List.mem_cons.mpr (Or.inl h.symm))
    simp only [List.cons_append, splitOnNl, List.append_eq, if_neg hc]
    rw [ih (fun h => hx (List.mem_cons_of_mem _ h))]
    rfl

/-- A newline-free prefix merges into the first chunk of a split. -/
theorem splitOnNl_append_left {m : List Char} (hm : '\n' ∉ m) (c hd : List Char)
    (tl : List (List Char)) (h : splitOnNl c = hd :: tl) :
    splitOnNl (m ++ c) = (m ++ hd) :: tl := by
  induction m with
  | nil => simpa using h
  | cons a as ih =>
    have ha : ¬ a = '\n' := fun hh => hm (List.mem_cons.mpr (Or.inl hh.symm))
    simp only [List.cons_append, splitOnNl, List.append_eq, if_neg ha]
    rw [ih (fun hh => hm (List.mem_cons_of_mem _ hh))]
    rfl

/-- A list containing a newline splits into at least two chunks. -/
theorem two_le_splitOnNl {l : List Char} (h : '\n' ∈ l) : 2 ≤ (splitOnNl l).length := by
  induction l with
  | nil => simp at h
  | cons c rest ih =>
    simp only [splitOnNl]
    by_cases hc : c = '\n'
    · rw [if_pos hc]
      have hpos : 0 < (splitOnNl rest).length :=
        List.length_pos.mpr (splitOnNl_ne_nil rest)
      simp
      omega
    · rw [if_neg hc]
      have hr : '\n' ∈ rest := by
        rcases List.mem_cons.mp h with h1 | h1
        · exact absurd h1.symm hc
        · exact h1
      have h2 := ih hr
      cases hsp : splitOnNl rest with
      | nil => exact absurd hsp (splitOnNl_ne_nil rest)
      | cons a as =>
        rw [hsp] at h2
        simp [consHead]
        simp at h2
        omega

/-- Extract the middle segment of a three-part concatenation. -/
theorem drop_take_mid3 (x mid y : List Char) {n m : Nat}
    (hn : x.length = n) (hm : mid.length = m) :
    ((x ++ mid ++ y).drop n).take m = mid := by
  subst hn; subst hm
  rw [List.append_assoc, List.drop_left, List.take_left]

/-- C8: invoking an action id that is not one of the seven registered ids
finds nothing in the registry, so the document and selection are left
untouched (modelled as a `none` result). -/
theorem runAction_not_found (id : String)
    (h : id ∉ (["bold", "italic", "heading", "quote", "code", "todo", "divider"] :
      List String)) (args : TransformArgs) : runAction id args = none := by
  have hfind : formattingActions.find? (fun item => item.id == id) = none := by
    rw [List.find?_eq_none]
    intro x hx hpx
    apply h
    have hid : x.id = id := by simpa [beq_iff_eq] using hpx
    rw [← hid]
    simp only [formattingActions, List.mem_cons, List.not_mem_nil, or_false] at hx
    rcases hx with h' | h' | h' | h' | h' | h' | h' <;> subst h' <;> simp
  simp [runAction, hfind]

/-- Witness for C8 at a concrete unregistered id. -/
theorem runAction_not_found_witness :
    ("nope" ∉ (["bold", "italic", "heading", "quote", "code", "todo", "divider"] :
      List String)) ∧ runAction "nope" ⟨"hi".toList, 0, 1⟩ = none :=
  ⟨by decide, runAction_not_found "nope" (by decide) _⟩

end Quickwrite

namespace Quickwrite

/-- C5: mode selection of the code transform. An empty selection always
produces a fenced block containing the literal placeholder; a non-empty
selection containing a newline produces a fenced block with the selection
verbatim; a non-empty single-line selection produces inline code with no
added blank lines and the selection covering the content between the
backticks. -/
theorem codeTransform_modes (t : List Char) (s e : Nat)
    (hse : s ≤ e) (het : e ≤ t.length) :
    (selectedSlice ⟨t, s, e⟩ = [] →
      codeTransform ⟨t, s, e⟩ =
        ⟨t.take s ++
            ((if (t.take s).getLast? = some '\n' then ("\n".toList) else ("\n\n".toList)) ++
              ("```\n".toList) ++ ("code snippet".toList) ++ ("\n```".toList) ++
              (if (t.drop e).head? = some '\n' then ("\n".toList) else ("\n\n".toList))) ++
          t.drop e,
         s + (if (t.take s).getLast? = some '\n' then ("\n".toList)
            else ("\n\n".toList)).length + 4,
         s + (if (t.take s).getLast? = some '\n' then ("\n".toList)
            else ("\n\n".toList)).length + 4 + ("code snippet".toList).length⟩) ∧
    (selectedSlice ⟨t, s, e⟩ ≠ [] → (selectedSlice ⟨t, s, e⟩).contains '\n' = true →
      codeTransform ⟨t, s, e⟩ =
        ⟨t.take s ++
            ((if (t.take s).getLast? = some '\n' then ("\n".toList) else ("\n\n".toList)) ++
              ("```\n".toList) ++ selectedSlice ⟨t, s, e⟩ ++ ("\n```".toList) ++
              (if (t.drop e).head? = some '\n' then ("\n".toList) else ("\n\n".toList))) ++
          t.drop e,
         s + (if (t.take s).getLast? = some '\n' then ("\n".toList)
            else ("\n\n".toList)).length + 4,
         s + (if (t.take s).getLast? = some '\n' then ("\n".toList)
            else ("\n\n".toList)).length + 4 + (selectedSlice ⟨t, s, e⟩).length⟩) ∧
    (selectedSlice ⟨t, s, e⟩ ≠ [] → (selectedSlice ⟨t, s, e⟩).contains '\n' = false →
      codeTransform ⟨t, s, e⟩ =
        ⟨t.take s ++ (("`".toList) ++ selectedSlice ⟨t, s, e⟩ ++ ("`".toList)) ++ t.drop e,
         s + 1, s + 1 + (selectedSlice ⟨t, s, e⟩).length⟩) := by
  have hs : s ≤ t.length := le_trans hse het
  refine ⟨?_, ?_, ?_⟩
  · intro hsel
    simp only [codeTransform, hsel]
    simp [length_take_of_le hs]
  · intro hne hml
    have hpos : 0 < (selectedSlice ⟨t, s, e⟩).length := List.length_pos.mpr hne
    simp only [codeTransform, if_pos hpos]
    rw [if_pos (Or.inl hml)]
    simp [length_take_of_le hs]
  · intro hne hml
    have hpos : 0 < (selectedSlice ⟨t, s, e⟩).length := List.length_pos.mpr hne
    have hlen : (selectedSlice ⟨t, s, e⟩).length ≠ 0 := by omega
    simp only [codeTransform, if_pos hpos]
    rw [if_neg ?hcond]
    case hcond =>
      rintro (hc | hc)
      · rw [hml] at hc
        exact absurd hc (by simp)
      · exact hlen hc

/-- Witness for C5 at a concrete single-line selection. -/
theorem codeTransform_modes_witness :
    codeTransform ⟨"xy".toList, 0, 1⟩ =
      ⟨"xy".toList.take 0 ++ (("`".toList) ++ selectedSlice ⟨"xy".toList, 0, 1⟩ ++
          ("`".toList)) ++ "xy".toList.drop 1,
       0 + 1, 0 + 1 + (selectedSlice ⟨"xy".toList, 0, 1⟩).length⟩ :=
  (codeTransform_modes ("xy".toList) 0 1 (by decide) (by decide)).2.2
    (by decide) (by decide)

/-- C10: when the stripped and trimmed selection still contains a newline,
the heading transform keeps the interior newlines of the content: the
heading marker is prepended once, to the first line only, and the later
lines of the content are left as further lines after the heading line. -/
theorem headingTransform_multiline (t : List Char) (s e : Nat)
    (_hse : s ≤ e) (_het : e ≤ t.length)
    (hnl : '\n' ∈ jsTrim (stripHeadingMarker (selectedSlice ⟨t, s, e⟩))) :
    ∃ hd tl, tl ≠ [] ∧
      splitOnNl (jsTrim (stripHeadingMarker (selectedSlice ⟨t, s, e⟩))) = hd :: tl ∧
      splitOnNl (("## ".toList) ++ jsTrim (stripHeadingMarker (selectedSlice ⟨t, s, e⟩))) =
        (("## ".toList) ++ hd) :: tl ∧
      (headingTransform 2 ⟨t, s, e⟩).value =
        t.take s ++
          ((if s = 0 ∨ (t.take s).getLast? = some '\n' then ([] : List Char)
              else ("\n\n".toList)) ++
            (List.replicate 2 '#' ++ [' ']) ++
            jsTrim (stripHeadingMarker (selectedSlice ⟨t, s, e⟩)) ++
            (if e = t.length ∨ (t.drop e).head? = some '\n' then ([] : List Char)
              else ("\n\n".toList))) ++
          t.drop e := by
  have hne : jsTrim (stripHeadingMarker (selectedSlice ⟨t, s, e⟩)) ≠ [] := by
    intro h
    rw [h] at hnl
    simp at hnl
  have hpos : 0 < (jsTrim (stripHeadingMarker (selectedSlice ⟨t, s, e⟩))).length :=
    List.length_pos.mpr hne
  obtain ⟨hd, tl, hsplit⟩ : ∃ hd tl,
      splitOnNl (jsTrim (stripHeadingMarker (selectedSlice ⟨t, s, e⟩))) = hd :: tl := by
    cases h : splitOnNl (jsTrim (stripHeadingMarker (selectedSlice ⟨t, s, e⟩))) with
    | nil => exact absurd h (splitOnNl_ne_nil _)
    | cons a as => exact ⟨a, as, rfl⟩
  refine ⟨hd, tl, ?_, hsplit, ?_, ?_⟩
  · have h2 := two_le_splitOnNl hnl
    rw [hsplit] at h2
    simp at h2
    intro htl
    rw [htl] at h2
    simp at h2
  · exact splitOnNl_append_left (by decide) _ _ _ hsplit
  · rw [headingTransform_shape, if_pos hpos]

/-- Witness for C10 at a concrete two-line selection. -/
theorem headingTransform_multiline_witness :
    ∃ hd tl, tl ≠ [] ∧
      splitOnNl (jsTrim (stripHeadingMarker (selectedSlice ⟨"ab\ncd".toList, 0, 5⟩))) =
        hd :: tl ∧
      splitOnNl (("## ".toList) ++
          jsTrim (stripHeadingMarker (selectedSlice ⟨"ab\ncd".toList, 0, 5⟩))) =
        (("## ".toList) ++ hd) :: tl ∧
      (headingTransform 2 ⟨"ab\ncd".toList, 0, 5⟩).value =
        "ab\ncd".toList.take 0 ++
          ((if 0 = 0 ∨ ("ab\ncd".toList.take 0).getLast? = some '\n' then ([] : List Char)
              else ("\n\n".toList)) ++
            (List.replicate 2 '#' ++ [' ']) ++
            jsTrim (stripHeadingMarker (selectedSlice ⟨"ab\ncd".toList, 0, 5⟩)) ++
            (if 5 = "ab\ncd".toList.length ∨ ("ab\ncd".toList.drop 5).head? = some '\n'
              then ([] : List Char) else ("\n\n".toList))) ++
          "ab\ncd".toList.drop 5 :=
  headingTransform_multiline ("ab\ncd".toList) 0 5 (by decide) (by decide) (by decide)

end Quickwrite

namespace Quickwrite

/-- The prefixed form of a newline-free line is newline-free. -/
theorem transformLine_no_nl {pfx line : List Char} (hp : '\n' ∉ pfx)
    (hl : '\n' ∉ line) : '\n' ∉ transformLine pfx line := by
  unfold transformLine
  split
  · intro h
    rcases List.mem_append.mp h with h1 | h1
    · exact hp h1
    · exact hl h1
  · exact hp

/-- Every transformed line starts with the marker `"> "`. -/
theorem transformLine_take_two (line : List Char) :
    (transformLine ("> ".toList) line).take 2 = "> ".toList := by
  unfold transformLine
  split
  · exact List.take_left' (by decide)
  · rfl

/-- C4: on a non-empty selection that splits into exactly three lines, the
quote transform produces a transformed region of exactly three lines, each
obtained by the per-line rule, rejoined with single `\n` characters, and
each starting with the marker `"> "`. -/
theorem prefixLines_three_lines (t ph : List Char) (s e : Nat)
    (hse : s ≤ e) (het : e ≤ t.length)
    (hne : selectedSlice ⟨t, s, e⟩ ≠ [])
    (h3 : (splitLines (selectedSlice ⟨t, s, e⟩)).length = 3) :
    ∃ l1 l2 l3, splitLines (selectedSlice ⟨t, s, e⟩) = [l1, l2, l3] ∧
      ((prefixLines ("> ".toList) ph ⟨t, s, e⟩).value.drop s).take
          ((prefixLines ("> ".toList) ph ⟨t, s, e⟩).selectionEnd - s) =
        transformLine ("> ".toList) l1 ++ '\n' ::
          (transformLine ("> ".toList) l2 ++ '\n' :: transformLine ("> ".toList) l3) ∧
      splitOnNl (transformLine ("> ".toList) l1 ++ '\n' ::
          (transformLine ("> ".toList) l2 ++ '\n' :: transformLine ("> ".toList) l3)) =
        [transformLine ("> ".toList) l1, transformLine ("> ".toList) l2,
          transformLine ("> ".toList) l3] ∧
      ∀ y ∈ [transformLine ("> ".toList) l1, transformLine ("> ".toList) l2,
          transformLine ("> ".toList) l3], y.take 2 = "> ".toList := by
  have hs : s ≤ t.length := le_trans hse het
  have hpos : 0 < (selectedSlice ⟨t, s, e⟩).length := List.length_pos.mpr hne
  obtain ⟨l1, l2, l3, hls⟩ := List.length_eq_three.mp h3
  have hnl1 : '\n' ∉ l1 := splitLines_no_nl _ l1 (by rw [hls]; simp)
  have hnl2 : '\n' ∉ l2 := splitLines_no_nl _ l2 (by rw [hls]; simp)
  have hnl3 : '\n' ∉ l3 := splitLines_no_nl _ l3 (by rw [hls]; simp)
  have hpc : prefixContent ("> ".toList) (selectedSlice ⟨t, s, e⟩) =
      transformLine ("> ".toList) l1 ++ '\n' ::
        (transformLine ("> ".toList) l2 ++ '\n' :: transformLine ("> ".toList) l3) := by
    rw [prefixContent, hls]
    simp [joinNl]
  refine ⟨l1, l2, l3, hls, ?_, ?_, ?_⟩
  · simp only [prefixLines, if_pos hpos]
    have harith : s + (prefixContent ("> ".toList) (selectedSlice ⟨t, s, e⟩)).length - s =
        (prefixContent ("> ".toList) (selectedSlice ⟨t, s, e⟩)).length := by omega
    rw [harith, drop_take_mid3 _ _ _ (length_take_of_le hs) rfl, hpc]
  · have hm1 : '\n' ∉ transformLine ("> ".toList) l1 :=
      transformLine_no_nl (by decide) hnl1
    have hm2 : '\n' ∉ transformLine ("> ".toList) l2 :=
      transformLine_no_nl (by decide) hnl2
    have hm3 : '\n' ∉ transformLine ("> ".toList) l3 :=
      transformLine_no_nl (by decide) hnl3
    rw [splitOnNl_append_cons hm1, splitOnNl_append_cons hm2, splitOnNl_no_nl hm3]
  · intro y hy
    rcases List.mem_cons.mp hy with h | hy
    · rw [h]; exact transformLine_take_two l1
    rcases List.mem_cons.mp hy with h | hy
    · rw [h]; exact transformLine_take_two l2
    rcases List.mem_cons.mp hy with h | hy
    · rw [h]; exact transformLine_take_two l3
    · simp at hy

/-- Witness for C4 at a concrete three-line selection. -/
theorem prefixLines_three_lines_witness :
    ∃ l1 l2 l3, splitLines (selectedSlice ⟨"a\nb\nc".toList, 0, 5⟩) = [l1, l2, l3] ∧
      ((prefixLines ("> ".toList) ("q".toList) ⟨"a\nb\nc".toList, 0, 5⟩).value.drop 0).take
          ((prefixLines ("> ".toList) ("q".toList) ⟨"a\nb\nc".toList, 0, 5⟩).selectionEnd - 0) =
        transformLine ("> ".toList) l1 ++ '\n' ::
          (transformLine ("> ".toList) l2 ++ '\n' :: transformLine ("> ".toList) l3) ∧
      splitOnNl (transformLine ("> ".toList) l1 ++ '\n' ::
          (transformLine ("> ".toList) l2 ++ '\n' :: transformLine ("> ".toList) l3)) =
        [transformLine ("> ".toList) l1, transformLine ("> ".toList) l2,
          transformLine ("> ".toList) l3] ∧
      ∀ y ∈ [transformLine ("> ".toList) l1, transformLine ("> ".toList) l2,
          transformLine ("> ".toList) l3], y.take 2 = "> ".toList :=
  prefixLines_three_lines ("a\nb\nc".toList) ("q".toList) 0 5
    (by decide) (by decide) (by decide)
    (by simp +decide [selectedSlice, splitLines, consHead])

end Quickwrite
